import Mathlib

/-!
Shallow embedding of the mask-application core of `nullstack-input-mask`
(`src/InputMask.tsx`): the pure transducer `applyMask` (lines 158-194) and
the strict-mode keystroke gate inside the `oninput` handler (lines 124-137).

Strings are modelled as `List Char`; `value[rawIndex]` is `value[rawIndex]?`
(`none` for the out-of-range JS `undefined`).

A JS `RegExp` is abstracted by the one operation the program performs on it,
`.test(value[rawIndex])`, i.e. by a function `Option Char → Bool`:
`some c` is the one-character string at an in-range index, `none` is
`undefined` (which JS coerces to the nine-character string "undefined"
before matching, so a real regex such as `/[a-z]/` accepts it while `/\d/`
rejects it). Every such function is realised by a real regex: an anchored
character class `/^[...]$/` decides the `some` cases freely and never
matches the nine-character coercion, and appending the alternative
`|undefined` turns the `none` case to `true`. Flagged regexes (`g`, `y`)
carry `lastIndex` state across `.test` calls; that statefulness is outside
this functional model, which captures stateless rules such as `/\d/`.
-/

/-- A JS `RegExp` as observed by this program: its `.test` on the character
at the raw cursor, with `none` standing for the out-of-range `undefined`. -/
abbrev JSRegex : Type := Option Char → Bool

/-- The `replacement : Record<string, RegExp>` of `InputMask.tsx`, looked up
at a single-character key. A missing key reads as `undefined`, which is
falsy, so `none` sends `applyMask` to its literal branch; a present `RegExp`
object is always truthy. (Single-character keys never collide with the
multi-character `Object.prototype` property names.) -/
abbrev Replacement : Type := Char → Option JSRegex

/-- JS `maskedValue += inputChar` where `inputChar = value[rawIndex]`: an
in-range character appends itself; `undefined` is coerced and appends the
nine characters of the string "undefined". -/
def jsAppend : Option Char → List Char
  | some ch => [ch]
  | none => 'u' :: 'n' :: 'd' :: 'e' :: 'f' :: 'i' :: 'n' :: 'e' :: 'd' :: []

/-- The loop body of `applyMask` (`src/InputMask.tsx` lines 162-191), taken
from the remaining mask positions and the current `rawIndex`; it returns the
output contributed from this position on, paired with the final `rawIndex`.
JS `rawIndex >= value.length` is `value.length ≤ rawIndex`, and the
literal branch first applies the skip rule (`value[rawIndex] === maskChar`)
and then the exhaustion break on the updated index, here laid out as the
skip and no-skip cases. -/
def applyMaskGo (replacement : Replacement) (value : List Char) :
    List Char → Nat → List Char × Nat
  | [], rawIndex => ([], rawIndex)
  | maskChar :: maskRest, rawIndex =>
    match replacement maskChar with
    | some regex =>
      if regex value[rawIndex]? then
        if value.length ≤ rawIndex + 1 then (jsAppend value[rawIndex]?, rawIndex + 1)
        else
          (jsAppend value[rawIndex]? ++ (applyMaskGo replacement value maskRest (rawIndex + 1)).1,
           (applyMaskGo replacement value maskRest (rawIndex + 1)).2)
      else ([], rawIndex)
    | none =>
      if value[rawIndex]? = some maskChar then
        if value.length ≤ rawIndex + 1 then ([maskChar], rawIndex + 1)
        else
          (maskChar :: (applyMaskGo replacement value maskRest (rawIndex + 1)).1,
           (applyMaskGo replacement value maskRest (rawIndex + 1)).2)
      else
        if value.length ≤ rawIndex then ([maskChar], rawIndex)
        else
          (maskChar :: (applyMaskGo replacement value maskRest rawIndex).1,
           (applyMaskGo replacement value maskRest rawIndex).2)

/-- `applyMask(value, mask, replacement)` of `src/InputMask.tsx` lines
158-194: the masked value built by the loop from position 0 with
`rawIndex = 0`. -/
def applyMask (value mask : List Char) (replacement : Replacement) : List Char :=
  (applyMaskGo replacement value mask 0).1

/-- The final value of the raw cursor `rawIndex` of the same run: how far
into the raw input the pass advanced before returning. -/
def consumedIndex (value mask : List Char) (replacement : Replacement) : Nat :=
  (applyMaskGo replacement value mask 0).2

/-- The strict-mode check of the `oninput` handler (`src/InputMask.tsx`
lines 126-134): `mask.split("").some((char, index) => ...)`, pairing each
mask position with the input character at the same position. A position
with no input character (`!inputChar`: a one-character string is never
falsy, so this is exactly the out-of-range case) contributes `false`; a
mask character with no `replacement` entry yields
`new RegExp(undefined, "g")`, the empty regex, which matches every
character, so the position contributes `false`; otherwise the position is
forbidden exactly when the rule rejects the input character. (The handler
recompiles a present rule with the `"g"` flag — fresh each call, so its
`lastIndex` is 0; the recompilation is modelled as testing the same rule,
which abstracts away the dropping of any original flags.) -/
def gateForbidden (replacement : Replacement) : List Char → List Char → Bool
  | [], _ => false
  | _ :: _, [] => false
  | maskChar :: maskRest, inputChar :: inputRest =>
    (match replacement maskChar with
     | none => false
     | some regex => !(regex (some inputChar))) || gateForbidden replacement maskRest inputRest

/-- The value the `oninput` handler leaves in the input element
(`src/InputMask.tsx` lines 121-143): with strict mode on
(`allowunmatches` not set) a forbidden raw value is discarded and the
previously computed masked value `this.value` is restored verbatim;
otherwise the raw value is run through `applyMask`. -/
def oninputResult (allowunmatches : Bool) (previous rawValue mask : List Char)
    (replacement : Replacement) : List Char :=
  if !allowunmatches && gateForbidden replacement mask rawValue then previous
  else applyMask rawValue mask replacement

/-- The rule `/\d/`: accepts exactly the ten ASCII digits; it rejects the
`undefined` coercion (the string "undefined" holds no digit). -/
def digitRegex : JSRegex
  | some ch => ch.isDigit
  | none => false

/-- `replacement = { _: /\d/ }` of the phone-mask example. -/
def underscoreDigit : Replacement := fun c => if c = '_' then some digitRegex else none

/-- `replacement = { 9: /\d/ }` of the date-mask example. -/
def nineDigit : Replacement := fun c => if c = '9' then some digitRegex else none

/-- `replacement = {}`: no slot markers at all. -/
def noSlots : Replacement := fun _ => none

/-- `replacement = { 9: /undefined/ }`: a real regex that rejects every
single character (no one-character string contains "undefined") yet accepts
the `undefined` coercion. -/
def undefRegex : JSRegex
  | some _ => false
  | none => true

/-- The mapping `{ 9: /undefined/ }`. -/
def nineUndef : Replacement := fun c => if c = '9' then some undefRegex else none

/-- The empty regex `/(?:)/` (also `new RegExp(undefined)`): matches every
string, the `undefined` coercion included. -/
def anyRegex : JSRegex := fun _ => true

/-- Every rule of the mapping rejects the out-of-range lookup: its regex
does not match the nine-character coercion of `undefined`. True of the
advertised single-character classes (`/\d/.test(undefined)` is `false`); the
counterexample mappings above violate it. -/
def RejectsNone (v : Replacement) : Prop :=
  ∀ (c : Char) (regex : JSRegex), v c = some regex → regex none = false

example : applyMask "01012024".toList "99/99/9999".toList nineDigit = "01/01/2024".toList := by
  decide

example : applyMask "0a".toList "99/99/9999".toList nineDigit = "0".toList := by decide

example : applyMask "0101".toList "99/99/9999".toList nineDigit = "01/01".toList := by decide

example : applyMask "01/01/2024".toList "99/99/9999".toList nineDigit =
    "01/01/2024".toList := by decide

example : applyMask "".toList "(__) ____-____".toList underscoreDigit = "(".toList := by decide

example : applyMask "ab".toList "abc".toList noSlots = "ab".toList := by decide

example : applyMask "".toList "9".toList nineUndef = "undefined".toList := by decide

theorem applyMaskGo_idx_le (v : Replacement) (x : List Char) :
    ∀ (mask : List Char) (r : Nat), r ≤ (applyMaskGo v x mask r).2 := by
  intro mask
  induction mask with
  | nil => intro r; simp [applyMaskGo]
  | cons mc rest ih =>
    intro r
    rcases hrep : v mc with _ | regex <;> simp only [applyMaskGo, hrep]
    · split_ifs with h1 h2 h3
      · simp
      · have := ih (r + 1); simp only []; omega
      · simp
      · have := ih r; simp only []; omega
    · split_ifs with h1 h2
      · simp
      · have := ih (r + 1); simp only []; omega
      · simp

theorem applyMaskGo_len_le (v : Replacement) (x : List Char) :
    ∀ (mask : List Char) (r : Nat), ((applyMaskGo v x mask r).1).length ≤ mask.length + 8 := by
  intro mask
  induction mask with
  | nil => intro r; simp [applyMaskGo]
  | cons mc rest ih =>
    intro r
    rcases hrep : v mc with _ | regex <;> simp only [applyMaskGo, hrep]
    · split_ifs with h1 h2 h3 <;> simp only [List.length_cons, List.length_nil]
      · omega
      · have := ih (r + 1); omega
      · omega
      · have := ih r; omega
    · split_ifs with h1 h2
      · rcases hx : x[r]? with _ | ch <;> simp [jsAppend, hx]
      · have hr : r < x.length := by omega
        have hx : x[r]? = some x[r] := List.getElem?_eq_getElem hr
        have := ih (r + 1)
        simp only [hx, jsAppend, List.length_append, List.length_cons, List.length_nil]
        omega
      · simp

/-- C2 counterexample: with the spec's own scenario-5 input — mask
`"(__) ____-____"`, replacement `{ _: /\d/ }`, raw input `""` — the code
returns `"("`, not `""`: position 0 holds the literal `'('`, the literal
branch appends it unconditionally, and the exhaustion break only runs after
the position has been processed. -/
theorem applyMask_empty_phone_cex :
    applyMask [] "(__) ____-____".toList underscoreDigit = ['('] ∧ ('(' :: []) ≠ ([] : List Char) := by
  constructor
  · decide
  · decide

/-- C2 (amended): what `applyMask` actually returns on the empty raw input.
With an empty mask the output is empty. Otherwise only position 0 is
processed (the exhaustion break fires at its end, `0 >= 0`): a first literal
is emitted as a one-character output; a first slot whose rule rejects the
`undefined` lookup stops the pass with empty output; and a first slot whose
rule accepts the `undefined` coercion (a real possibility, e.g. `/[a-z]/`)
appends the nine characters of "undefined". The spec's `applyMask("", mask,
v) == ""` holds exactly in the empty-mask and rejecting-first-slot cases. -/
theorem applyMask_empty_characterization (mask : List Char) (v : Replacement) :
    applyMask [] mask v =
      (match mask with
       | [] => []
       | c :: _ =>
         match v c with
         | none => [c]
         | some regex => if regex none then jsAppend none else []) := by
  cases mask with
  | nil => rfl
  | cons c rest =>
    rcases hrep : v c with _ | regex
    · simp [applyMask, applyMaskGo, hrep]
    · simp only [applyMask, applyMaskGo, hrep, jsAppend, List.getElem?_nil]
      split_ifs <;> simp_all

/-- C10: on the empty raw input, a mask whose first character has no entry
in the validation mapping yields exactly that one literal character: the
literal branch appends it unconditionally and the end-of-input check only
runs after the position has been processed. -/
theorem applyMask_empty_literal_head (c : Char) (rest : List Char) (v : Replacement)
    (h : v c = none) : applyMask [] (c :: rest) v = [c] := by
  simp [applyMask, applyMaskGo, h]

/-- C10 witness: the phone mask starts with the literal `'('`, so the empty
raw input renders as `"("`. -/
theorem applyMask_empty_literal_head_example :
    applyMask [] ('(' :: "__) ____-____".toList) underscoreDigit = ['('] :=
  applyMask_empty_literal_head '(' "__) ____-____".toList underscoreDigit rfl

/-- C4: at a mask position whose character has no entry in the validation
mapping, the character is appended to the output unconditionally (the
output of the remaining run starts with `maskChar` whatever the raw input
holds), and the raw cursor advances by exactly one if and only if the raw
character at the cursor equals the mask character — afterwards the pass
breaks or continues according to the exhaustion check on the updated
cursor. Consequently pasting an already formatted value consumes the mask's
own separators: `applyMask("01/01/2024", "99/99/9999", {9: /\d/})` is
`"01/01/2024"`. -/
theorem applyMask_literal_step :
    (∀ (v : Replacement) (x : List Char) (mc : Char) (rest : List Char) (r : Nat),
      v mc = none →
        applyMaskGo v x (mc :: rest) r =
          (mc :: (if x.length ≤ (if x[r]? = some mc then r + 1 else r) then []
                  else (applyMaskGo v x rest (if x[r]? = some mc then r + 1 else r)).1),
           if x.length ≤ (if x[r]? = some mc then r + 1 else r)
             then (if x[r]? = some mc then r + 1 else r)
             else (applyMaskGo v x rest (if x[r]? = some mc then r + 1 else r)).2)) ∧
    applyMask "01/01/2024".toList "99/99/9999".toList nineDigit = "01/01/2024".toList := by
  constructor
  · intro v x mc rest r h
    simp only [applyMaskGo, h]
    split_ifs with h1 h2 h3 <;> simp
  · decide

/-- C6 counterexample: a slot-free mask is not always rendered in full. With
mask `"abc"`, no slot markers, and the non-empty raw input `"ab"`, the skip
rule consumes `'a'` and `'b'`, the raw cursor reaches the end of the input
after position 1, and the pass stops with output `"ab"`, not the whole
mask `"abc"`. -/
theorem applyMask_literal_mask_cex :
    applyMask "ab".toList "abc".toList noSlots = "ab".toList ∧
      applyMask "ab".toList "abc".toList noSlots ≠ "abc".toList := by
  constructor
  · decide
  · decide

/-- C3 counterexample: the output can be longer than the mask. The mapping
`{ 9: /undefined/ }` is a real regex whose test rejects every single
character but accepts the `undefined` read past the end of the raw input
(JS coerces it to the string "undefined"). On the empty raw input and the
one-character mask `"9"`, the slot test passes, `maskedValue += inputChar`
appends the nine-character coercion, and the output `"undefined"` has
length 9 > 1; it is no prefix of the mask's rendering either. -/
theorem applyMask_length_cex :
    applyMask [] ['9'] nineUndef = "undefined".toList ∧
      ¬ (applyMask [] ['9'] nineUndef).length ≤ (['9'] : List Char).length := by
  constructor
  · decide
  · decide

/-- C5 counterexample: `applyMask` is not idempotent for every mapping. With
`{ 9: /undefined/ }` and mask `"9"`, the empty raw input produces
`"undefined"`, but re-masking `"undefined"` produces `""` (the slot now
tests the real character `'u'`, which `/undefined/` rejects), so
`applyMask(applyMask("", m, v), m, v) ≠ applyMask("", m, v)`. -/
theorem applyMask_idem_cex :
    applyMask (applyMask [] ['9'] nineUndef) ['9'] nineUndef ≠
      applyMask [] ['9'] nineUndef := by
  decide

/-- C7 counterexample: prefix monotonicity fails for a mapping whose rule
accepts the `undefined` coercion. With mask `"9"` and `{ 9: /(?:)/ }` (the
empty regex matches everything), the empty raw input — a prefix of `"5"`
all of whose characters are vacuously accepted — renders as `"undefined"`,
while `"5"` renders as `"5"`; the former is no prefix of the latter. -/
theorem applyMask_pref_cex :
    ([] : List Char) <+: ['5'] ∧
      ¬ (applyMask [] ['9'] (fun c => if c = '9' then some anyRegex else none) <+:
          applyMask ['5'] ['9'] (fun c => if c = '9' then some anyRegex else none)) := by
  constructor
  · decide
  · decide

/-- C8: `applyMask` is total — it is a plain terminating function over all
inputs, with an explicit output bound witnessing that every call returns:
the output never exceeds the mask length plus the nine characters of a
possible `undefined` coercion; an empty mask yields an empty output (raw
input of any length included); and a mask character with no entry in the
validation mapping is processed by the literal branch — it is emitted at
the head of the output rather than crashing the pass. -/
theorem applyMask_total :
    (∀ (x m : List Char) (v : Replacement), (applyMask x m v).length ≤ m.length + 8) ∧
    (∀ (x : List Char) (v : Replacement), applyMask x [] v = []) ∧
    (∀ (x : List Char) (v : Replacement) (c : Char) (rest : List Char),
      v c = none → ∃ t, applyMask x (c :: rest) v = c :: t) := by
  refine ⟨fun x m v => applyMaskGo_len_le v x m 0, fun x v => rfl, ?_⟩
  intro x v c rest h
  simp only [applyMask, applyMaskGo, h]
  split_ifs <;> exact ⟨_, rfl⟩

theorem take_agree {x y : List Char} {n i : Nat} (h : x.take n = y.take n)
    (hi : i < n) : x[i]? = y[i]? := by
  have h1 : (x.take n)[i]? = (y.take n)[i]? := by rw [h]
  simpa [List.getElem?_take, hi] using h1

theorem eq_of_take_eq_of_lt {x y : List Char} {n : Nat} (h : x.take n = y.take n)
    (hx : x.length < n) : x = y := by
  have h1 : x.take n = x := List.take_of_length_le (by omega)
  have hlen : x.length = min n y.length := by
    have h2 := congrArg List.length h
    simpa [h1, List.length_take] using h2
  have hy : y.length ≤ n := by omega
  have h3 : y.take n = y := List.take_of_length_le hy
  rw [h1, h3] at h
  exact h

theorem applyMaskGo_local (v : Replacement) (x y : List Char) :
    ∀ (mask : List Char) (r : Nat),
      x.take ((applyMaskGo v x mask r).2 + 1) = y.take ((applyMaskGo v x mask r).2 + 1) →
      applyMaskGo v x mask r = applyMaskGo v y mask r := by
  intro mask
  induction mask with
  | nil => intro r _; rfl
  | cons mc rest ih =>
    intro r h
    have hRle : r ≤ (applyMaskGo v x (mc :: rest) r).2 := applyMaskGo_idx_le v x (mc :: rest) r
    have hxy : x[r]? = y[r]? := take_agree h (by omega)
    rcases hrep : v mc with _ | regex
    · by_cases hskip : x[r]? = some mc
      · by_cases hbrk : x.length ≤ r + 1
        · have hR2 : (applyMaskGo v x (mc :: rest) r).2 = r + 1 := by
            simp [applyMaskGo, hrep, hskip, hbrk]
          rw [hR2] at h
          rw [eq_of_take_eq_of_lt h (by omega)]
        · have hR2 : (applyMaskGo v x (mc :: rest) r).2 = (applyMaskGo v x rest (r + 1)).2 := by
            simp [applyMaskGo, hrep, hskip, hbrk]
          rw [hR2] at h
          have hR1le : r + 1 ≤ (applyMaskGo v x rest (r + 1)).2 :=
            applyMaskGo_idx_le v x rest (r + 1)
          have hylen : ¬ y.length ≤ r + 1 := by
            have hlx := congrArg List.length h
            simp only [List.length_take] at hlx
            omega
          have hrec := ih (r + 1) h
          simp only [applyMaskGo, hrep, ← hxy, if_pos hskip, if_neg hbrk, if_neg hylen, hrec]
      · by_cases hbrk : x.length ≤ r
        · have hR2 : (applyMaskGo v x (mc :: rest) r).2 = r := by
            simp [applyMaskGo, hrep, hskip, hbrk]
          rw [hR2] at h
          rw [eq_of_take_eq_of_lt h (by omega)]
        · have hR2 : (applyMaskGo v x (mc :: rest) r).2 = (applyMaskGo v x rest r).2 := by
            simp [applyMaskGo, hrep, hskip, hbrk]
          rw [hR2] at h
          have hR1le : r ≤ (applyMaskGo v x rest r).2 := applyMaskGo_idx_le v x rest r
          have hylen : ¬ y.length ≤ r := by
            have hlx := congrArg List.length h
            simp only [List.length_take] at hlx
            omega
          have hrec := ih r h
          simp only [applyMaskGo, hrep, ← hxy, if_neg hskip, if_neg hbrk, if_neg hylen, hrec]
    · by_cases htest : regex x[r]? = true
      · by_cases hbrk : x.length ≤ r + 1
        · have hR2 : (applyMaskGo v x (mc :: rest) r).2 = r + 1 := by
            simp [applyMaskGo, hrep, htest, hbrk]
          rw [hR2] at h
          rw [eq_of_take_eq_of_lt h (by omega)]
        · have hR2 : (applyMaskGo v x (mc :: rest) r).2 = (applyMaskGo v x rest (r + 1)).2 := by
            simp [applyMaskGo, hrep, htest, hbrk]
          rw [hR2] at h
          have hR1le : r + 1 ≤ (applyMaskGo v x rest (r + 1)).2 :=
            applyMaskGo_idx_le v x rest (r + 1)
          have hylen : ¬ y.length ≤ r + 1 := by
            have hlx := congrArg List.length h
            simp only [List.length_take] at hlx
            omega
          have hrec := ih (r + 1) h
          simp only [applyMaskGo, hrep, ← hxy, if_pos htest, if_neg hbrk, if_neg hylen, hrec]
      · simp only [applyMaskGo, hrep, ← hxy, if_neg htest]

/-- C1: the pass consults no raw-input character beyond its stopping point.
The stopping point of the run on `x` is reflected by the final raw cursor
`consumedIndex x m v`: the characters the loop read are those at indices
`0 .. consumedIndex` (the character at `consumedIndex` itself is the one a
failing slot tested, in the failure stop; in the input-exhausted stop the
take below covers all of `x`, so the hypothesis pins `y` to `x` itself,
matching the fact that this stop is decided by the length of `x`). Any two
raw inputs that agree on that consulted prefix produce the same masked
output, so the pass stops at the first failing slot or at the end of the
first position that exhausts the raw cursor, whichever comes first. -/
theorem applyMask_local (x y m : List Char) (v : Replacement)
    (h : x.take (consumedIndex x m v + 1) = y.take (consumedIndex x m v + 1)) :
    applyMask x m v = applyMask y m v := by
  unfold applyMask
  rw [applyMaskGo_local v x y m 0 h]

/-- C1 witness: `"1a9"` stops at the failing slot that tests `'a'`
(`consumedIndex = 1`), so `"1ab"`, which agrees with it on the first two
characters, masks to the same `"1/"`. -/
theorem applyMask_local_example :
    "1a9".toList.take (consumedIndex "1a9".toList "9/9".toList nineDigit + 1) =
      "1ab".toList.take (consumedIndex "1a9".toList "9/9".toList nineDigit + 1) ∧
    applyMask "1a9".toList "9/9".toList nineDigit =
      applyMask "1ab".toList "9/9".toList nineDigit :=
  ⟨by decide, applyMask_local "1a9".toList "1ab".toList "9/9".toList nineDigit (by decide)⟩

theorem rejectsNone_nineDigit : RejectsNone nineDigit := by
  intro c regex h
  by_cases hc : c = '9' <;> simp [nineDigit, hc] at h
  rw [← h]
  rfl

theorem rejectsNone_underscoreDigit : RejectsNone underscoreDigit := by
  intro c regex h
  by_cases hc : c = '_' <;> simp [underscoreDigit, hc] at h
  rw [← h]
  rfl

theorem rejectsNone_noSlots : RejectsNone noSlots := by
  intro c regex h
  simp [noSlots] at h

/-- A mask position whose character has no mapping entry always contributes
that character at the head of the remaining output. -/
theorem applyMaskGo_literal_head (v : Replacement) (x : List Char) (mc : Char)
    (rest : List Char) (r : Nat) (h : v mc = none) :
    ∃ t, (applyMaskGo v x (mc :: rest) r).1 = mc :: t := by
  simp only [applyMaskGo, h]
  split_ifs <;> exact ⟨_, rfl⟩

/-- Under `RejectsNone`, a slot that accepts reads a real character: every
processed position contributes exactly one character, so the output never
outgrows the mask. -/
theorem applyMaskGo_len_le_rn (v : Replacement) (x : List Char) (hv : RejectsNone v) :
    ∀ (mask : List Char) (r : Nat), ((applyMaskGo v x mask r).1).length ≤ mask.length := by
  intro mask
  induction mask with
  | nil => intro r; simp [applyMaskGo]
  | cons mc rest ih =>
    intro r
    rcases hrep : v mc with _ | regex <;> simp only [applyMaskGo, hrep]
    · split_ifs <;> simp only [List.length_cons, List.length_nil]
      · omega
      · have := ih (r + 1); omega
      · omega
      · have := ih r; omega
    · split_ifs with h1 h2
      · rcases hx : x[r]? with _ | ch
        · rw [hx] at h1
          rw [hv mc regex hrep] at h1
          cases h1
        · simp [hx, jsAppend]
      · rcases hx : x[r]? with _ | ch
        · rw [hx] at h1
          rw [hv mc regex hrep] at h1
          cases h1
        · have := ih (r + 1)
          simp only [hx, jsAppend, List.length_append, List.length_cons, List.length_nil]
          omega
      · simp

/-- Output-mask alignment: under `RejectsNone`, the character the run put at
output offset `i` sits under mask offset `i` (counting from the current
position): at a literal position it is the mask character itself, at a slot
position it is a character the slot's rule accepts. -/
theorem applyMaskGo_align (v : Replacement) (x : List Char) (hv : RejectsNone v) :
    ∀ (mask : List Char) (r i : Nat) (ci cm : Char),
      ((applyMaskGo v x mask r).1)[i]? = some ci → mask[i]? = some cm →
      ((v cm = none → ci = cm) ∧ ∀ regex, v cm = some regex → regex (some ci) = true) := by
  intro mask
  induction mask with
  | nil => intro r i ci cm h1 h2; simp [applyMaskGo] at h1
  | cons mc rest ih =>
    intro r i ci cm h1 h2
    rcases hrep : v mc with _ | regex
    · simp only [applyMaskGo, hrep] at h1
      split_ifs at h1 with hc1 hc2 hc3
      · cases i with
        | zero =>
          simp at h1 h2
          subst h1; subst h2
          exact ⟨fun _ => rfl, fun regex hr => by rw [hrep] at hr; cases hr⟩
        | succ j => simp at h1
      · cases i with
        | zero =>
          simp at h1 h2
          subst h1; subst h2
          exact ⟨fun _ => rfl, fun regex hr => by rw [hrep] at hr; cases hr⟩
        | succ j =>
          simp only [List.getElem?_cons_succ] at h1 h2
          exact ih (r + 1) j ci cm h1 h2
      · cases i with
        | zero =>
          simp at h1 h2
          subst h1; subst h2
          exact ⟨fun _ => rfl, fun regex hr => by rw [hrep] at hr; cases hr⟩
        | succ j => simp at h1
      · cases i with
        | zero =>
          simp at h1 h2
          subst h1; subst h2
          exact ⟨fun _ => rfl, fun regex hr => by rw [hrep] at hr; cases hr⟩
        | succ j =>
          simp only [List.getElem?_cons_succ] at h1 h2
          exact ih r j ci cm h1 h2
    · simp only [applyMaskGo, hrep] at h1
      split_ifs at h1 with hc1 hc2
      · rcases hx : x[r]? with _ | ch
        · rw [hx, hv mc regex hrep] at hc1; cases hc1
        · rw [hx] at h1 hc1
          cases i with
          | zero =>
            simp [jsAppend] at h1
            simp at h2
            subst h1; subst h2
            refine ⟨fun hn => absurd (hrep.symm.trans hn) (by simp), fun regex2 hr => ?_⟩
            rw [hrep] at hr
            cases hr
            exact hc1
          | succ j => simp [jsAppend] at h1
      · rcases hx : x[r]? with _ | ch
        · rw [hx, hv mc regex hrep] at hc1; cases hc1
        · rw [hx] at h1 hc1
          cases i with
          | zero =>
            simp [jsAppend] at h1
            simp at h2
            subst h1; subst h2
            refine ⟨fun hn => absurd (hrep.symm.trans hn) (by simp), fun regex2 hr => ?_⟩
            rw [hrep] at hr
            cases hr
            exact hc1
          | succ j =>
            simp only [jsAppend, List.singleton_append, List.getElem?_cons_succ] at h1
            simp only [List.getElem?_cons_succ] at h2
            exact ih (r + 1) j ci cm h1 h2
      · simp at h1

/-- C3 (amended, forced by the `/undefined/` counterexample): provided every
rule of the mapping rejects the out-of-range `undefined` lookup — as the
usual single-character classes such as `/\d/` do — the output never
outgrows the mask, and every output position whose mask character is a
literal (no mapping entry) carries exactly that mask character, so the
output is a prefix of the mask's full rendering. -/
theorem applyMask_length_pref (x m : List Char) (v : Replacement) (hv : RejectsNone v) :
    (applyMask x m v).length ≤ m.length ∧
      ∀ (i : Nat) (ci cm : Char), (applyMask x m v)[i]? = some ci → m[i]? = some cm →
        v cm = none → ci = cm := by
  refine ⟨applyMaskGo_len_le_rn v x hv m 0, fun i ci cm h1 h2 hnone => ?_⟩
  exact (applyMaskGo_align v x hv m 0 i ci cm h1 h2).1 hnone

/-- C3 witness: the date mask with `{ 9: /\d/ }` at the raw input
`"0101"`. -/
theorem applyMask_length_pref_example :
    (applyMask "0101".toList "99/99/9999".toList nineDigit).length ≤
        "99/99/9999".toList.length ∧
      ∀ (i : Nat) (ci cm : Char),
        (applyMask "0101".toList "99/99/9999".toList nineDigit)[i]? = some ci →
        "99/99/9999".toList[i]? = some cm → nineDigit cm = none → ci = cm :=
  applyMask_length_pref "0101".toList "99/99/9999".toList nineDigit rejectsNone_nineDigit

/-- Re-running the pass over a value that is position-by-position coherent
with the mask — each position holds the literal itself or a character its
slot's rule accepts — walks the value in lockstep (the skip rule consumes
every literal, each slot re-accepts its character) and reproduces it
unchanged, stopping exactly when the value is exhausted. -/
theorem applyMaskGo_fix (v : Replacement) (y : List Char) :
    ∀ (mask : List Char) (j : Nat), j < y.length →
      (∀ (i : Nat) (ci cm : Char), y[j + i]? = some ci → mask[i]? = some cm →
        ((v cm = none → ci = cm) ∧ ∀ regex, v cm = some regex → regex (some ci) = true)) →
      y.length - j ≤ mask.length →
      applyMaskGo v y mask j = (y.drop j, y.length) := by
  intro mask
  induction mask with
  | nil =>
    intro j hj halign hlen
    simp only [List.length_nil] at hlen
    omega
  | cons mc rest ih =>
    intro j hj halign hlen
    have hch : y[j]? = some y[j] := List.getElem?_eq_getElem hj
    have hcond := halign 0 (y[j]) mc (by simp) (by simp)
    have hdropj : y.drop j = y[j] :: y.drop (j + 1) := List.drop_eq_getElem_cons hj
    rcases hrep : v mc with _ | regex
    · have hcm : y[j] = mc := hcond.1 hrep
      have hskip : y[j]? = some mc := by rw [hch, hcm]
      by_cases hbrk : y.length ≤ j + 1
      · have hdrop1 : y.drop (j + 1) = [] := List.drop_eq_nil_of_le hbrk
        simp only [applyMaskGo, hrep, if_pos hskip, if_pos hbrk]
        rw [hdropj, hdrop1, hcm]
        have : j + 1 = y.length := by omega
        rw [this]
      · have hrec := ih (j + 1) (by omega)
          (fun i ci cm2 h1 h2 => halign (i + 1) ci cm2
            (by rw [show j + (i + 1) = j + 1 + i by omega]; exact h1)
            (by simpa using h2))
          (by simp only [List.length_cons] at hlen; omega)
        simp only [applyMaskGo, hrep, if_pos hskip, if_neg hbrk, hrec]
        rw [hdropj, hcm]
    · have htest : regex (some y[j]) = true := hcond.2 regex hrep
      by_cases hbrk : y.length ≤ j + 1
      · have hdrop1 : y.drop (j + 1) = [] := List.drop_eq_nil_of_le hbrk
        simp only [applyMaskGo, hrep, hch, htest, if_pos hbrk, if_true, jsAppend]
        rw [hdropj, hdrop1]
        have : j + 1 = y.length := by omega
        rw [this]
      · have hrec := ih (j + 1) (by omega)
          (fun i ci cm2 h1 h2 => halign (i + 1) ci cm2
            (by rw [show j + (i + 1) = j + 1 + i by omega]; exact h1)
            (by simpa using h2))
          (by simp only [List.length_cons] at hlen; omega)
        simp only [applyMaskGo, hrep, hch, htest, if_neg hbrk, if_true, hrec, jsAppend]
        rw [hdropj]
        simp

/-- C5 (amended, forced by the `/undefined/` counterexample): provided every
rule of the mapping rejects the out-of-range `undefined` lookup,
`applyMask` is idempotent — its output is position-by-position coherent
with the mask, and re-masking a coherent value walks it in lockstep and
reproduces it. -/
theorem applyMask_idem (x m : List Char) (v : Replacement) (hv : RejectsNone v) :
    applyMask (applyMask x m v) m v = applyMask x m v := by
  by_cases h0 : applyMask x m v = []
  · rw [h0]
    cases m with
    | nil => rfl
    | cons c rest =>
      rcases hrep : v c with _ | regex
      · obtain ⟨t, ht⟩ := applyMaskGo_literal_head v x c rest 0 hrep
        rw [applyMask, ht] at h0
        simp at h0
      · have hn : regex none = false := hv c regex hrep
        simp [applyMask, applyMaskGo, hrep, hn]
  · have hlen0 : 0 < (applyMask x m v).length := List.length_pos.mpr h0
    have hfix := applyMaskGo_fix v (applyMask x m v) m 0 hlen0
      (fun i ci cm h1 h2 => applyMaskGo_align v x hv m 0 i ci cm (by simpa using h1) h2)
      (by simpa using applyMaskGo_len_le_rn v x hv m 0)
    show (applyMaskGo v (applyMask x m v) m 0).1 = applyMask x m v
    rw [hfix]
    simp

/-- C5 witness: re-masking `applyMask("0101", "99/99/9999", {9: /\d/})`,
i.e. `"01/01"`, reproduces `"01/01"`. -/
theorem applyMask_idem_example :
    applyMask (applyMask "0101".toList "99/99/9999".toList nineDigit)
        "99/99/9999".toList nineDigit =
      applyMask "0101".toList "99/99/9999".toList nineDigit :=
  applyMask_idem "0101".toList "99/99/9999".toList nineDigit rejectsNone_nineDigit

/-- With no slot markers at all, every position takes the literal branch, so
the output is always a prefix of the mask. -/
theorem applyMaskGo_all_literal_pref (v : Replacement) (x : List Char)
    (hall : ∀ c, v c = none) :
    ∀ (mask : List Char) (r : Nat), (applyMaskGo v x mask r).1 <+: mask := by
  intro mask
  induction mask with
  | nil => intro r; simp [applyMaskGo]
  | cons mc rest ih =>
    intro r
    simp only [applyMaskGo, hall mc]
    split_ifs
    · exact List.cons_prefix_cons.mpr ⟨rfl, List.nil_prefix⟩
    · exact List.cons_prefix_cons.mpr ⟨rfl, ih (r + 1)⟩
    · exact List.cons_prefix_cons.mpr ⟨rfl, List.nil_prefix⟩
    · exact List.cons_prefix_cons.mpr ⟨rfl, ih r⟩

/-- With no slot markers, if the raw character under the cursor occurs
nowhere in the remaining mask, the skip rule never fires again: the cursor
stays put, the exhaustion break never triggers, and the whole remaining
mask is rendered. -/
theorem applyMaskGo_all_literal_noskip (v : Replacement) (x : List Char)
    (hall : ∀ c, v c = none) :
    ∀ (mask : List Char) (r : Nat) (xc : Char), x[r]? = some xc → xc ∉ mask →
      applyMaskGo v x mask r = (mask, r) := by
  intro mask
  induction mask with
  | nil => intro r xc h1 h2; rfl
  | cons mc rest ih =>
    intro r xc h1 h2
    have hne : xc ≠ mc := fun he => h2 (he ▸ List.mem_cons_self mc rest)
    have hnr : xc ∉ rest := fun hm => h2 (List.mem_cons_of_mem mc hm)
    have hskip : ¬ x[r]? = some mc := by
      rw [h1]
      intro he
      exact hne (Option.some_injective _ he)
    have hr : r < x.length := (List.getElem?_eq_some_iff.mp h1).1
    have hbrk : ¬ x.length ≤ r := by omega
    simp only [applyMaskGo, hall mc, if_neg hskip, if_neg hbrk, ih r xc h1 hnr]

/-- C6 (amended, forced by the `"ab"`-into-`"abc"` counterexample): for a
mask with no slot markers and a non-empty raw input, the output is a
non-empty prefix of the mask — the full mask unless the literal-skip rule
consumes the last raw character at some earlier position, where the
exhaustion break truncates the rendering; in particular the full mask is
rendered whenever the first raw character occurs nowhere in the mask (the
cursor then never moves and the break never fires). -/
theorem applyMask_literal_only (x m : List Char) (v : Replacement)
    (hall : ∀ c, v c = none) (_hx : x ≠ []) :
    applyMask x m v <+: m ∧ (m ≠ [] → applyMask x m v ≠ []) ∧
      ∀ c, x[0]? = some c → c ∉ m → applyMask x m v = m := by
  refine ⟨applyMaskGo_all_literal_pref v x hall m 0, ?_, ?_⟩
  · intro hm
    cases m with
    | nil => exact absurd rfl hm
    | cons c rest =>
      obtain ⟨t, ht⟩ := applyMaskGo_literal_head v x c rest 0 (hall c)
      rw [applyMask, ht]
      simp
  · intro c h1 h2
    rw [applyMask, applyMaskGo_all_literal_noskip v x hall m 0 c h1 h2]

/-- C6 witness: raw input `"xy"` against the slot-free mask `"abc"`: the
output `"abc"` is the whole mask, a fortiori a non-empty prefix. -/
theorem applyMask_literal_only_example :
    applyMask "xy".toList "abc".toList noSlots <+: "abc".toList ∧
      ("abc".toList ≠ [] → applyMask "xy".toList "abc".toList noSlots ≠ []) ∧
      ∀ c, "xy".toList[0]? = some c → c ∉ "abc".toList →
        applyMask "xy".toList "abc".toList noSlots = "abc".toList :=
  applyMask_literal_only "xy".toList "abc".toList noSlots (fun _ => rfl) (by decide)

theorem pref_getElem_agree {y x : List Char} (hpre : y <+: x) {i : Nat}
    (hi : i < y.length) : x[i]? = y[i]? := by
  obtain ⟨t, rfl⟩ := hpre
  simp [List.getElem?_append, hi]

/-- While the raw cursor is inside the shorter input, the two runs walk in
lockstep, so the run on the prefix produces a prefix of the other run's
output. -/
theorem applyMaskGo_pref (v : Replacement) (x y : List Char) (hpre : y <+: x) :
    ∀ (mask : List Char) (r : Nat), r < y.length →
      (applyMaskGo v y mask r).1 <+: (applyMaskGo v x mask r).1 := by
  intro mask
  induction mask with
  | nil => intro r hr; simp [applyMaskGo]
  | cons mc rest ih =>
    intro r hr
    have hylen : y.length ≤ x.length := hpre.length_le
    have hagree : x[r]? = y[r]? := pref_getElem_agree hpre hr
    rcases hrep : v mc with _ | regex
    · by_cases hskip : y[r]? = some mc
      · have hxskip : x[r]? = some mc := by rw [hagree]; exact hskip
        by_cases hbrk : y.length ≤ r + 1
        · simp only [applyMaskGo, hrep, if_pos hskip, if_pos hxskip, if_pos hbrk]
          by_cases hbx : x.length ≤ r + 1
          · simp [if_pos hbx]
          · simp only [if_neg hbx]
            exact ⟨_, rfl⟩
        · have hbx : ¬ x.length ≤ r + 1 := by omega
          simp only [applyMaskGo, hrep, if_pos hskip, if_pos hxskip, if_neg hbrk, if_neg hbx]
          exact List.cons_prefix_cons.mpr ⟨rfl, ih (r + 1) (by omega)⟩
      · have hxskip : ¬ x[r]? = some mc := by rw [hagree]; exact hskip
        have hbrk : ¬ y.length ≤ r := by omega
        have hbx : ¬ x.length ≤ r := by omega
        simp only [applyMaskGo, hrep, if_neg hskip, if_neg hxskip, if_neg hbrk, if_neg hbx]
        exact List.cons_prefix_cons.mpr ⟨rfl, ih r hr⟩
    · by_cases htest : regex y[r]? = true
      · have hxtest : regex x[r]? = true := by rw [hagree]; exact htest
        by_cases hbrk : y.length ≤ r + 1
        · simp only [applyMaskGo, hrep, if_pos htest, if_pos hxtest, if_pos hbrk, hagree]
          by_cases hbx : x.length ≤ r + 1
          · simp [if_pos hbx]
          · simp only [if_neg hbx]
            exact List.prefix_append _ _
        · have hbx : ¬ x.length ≤ r + 1 := by omega
          simp only [applyMaskGo, hrep, if_pos htest, if_pos hxtest, if_neg hbrk, if_neg hbx,
            hagree]
          obtain ⟨t, ht⟩ := ih (r + 1) (by omega)
          exact ⟨t, by rw [List.append_assoc, ht]⟩
      · have hxtest : ¬ regex x[r]? = true := by rw [hagree]; exact htest
        simp only [applyMaskGo, hrep, if_neg htest, if_neg hxtest]
        simp

/-- C7 (amended, forced by the empty-regex counterexample): provided every
rule of the mapping rejects the out-of-range `undefined` lookup, extending
the raw input only extends (or leaves in place) the masked output: for any
`y` that is a prefix of `x`, `applyMask y m v` is a prefix of
`applyMask x m v`, with no assumption on the characters beyond the prefix
relation itself. -/
theorem applyMask_pref_mono (y x m : List Char) (v : Replacement) (hv : RejectsNone v)
    (hpre : y <+: x) : applyMask y m v <+: applyMask x m v := by
  cases y with
  | nil =>
    cases m with
    | nil => simp [applyMask, applyMaskGo]
    | cons c rest =>
      rcases hrep : v c with _ | regex
      · obtain ⟨t, ht⟩ := applyMaskGo_literal_head v x c rest 0 hrep
        have hy0 : applyMask [] (c :: rest) v = [c] := by
          simp [applyMask, applyMaskGo, hrep]
        rw [hy0, applyMask, ht]
        exact ⟨t, rfl⟩
      · have hn : regex none = false := hv c regex hrep
        have hy0 : applyMask [] (c :: rest) v = [] := by
          simp [applyMask, applyMaskGo, hrep, hn]
        rw [hy0]
        exact List.nil_prefix
  | cons c0 ytail => exact applyMaskGo_pref v x (c0 :: ytail) hpre m 0 (by simp)

/-- C7 witness: `"01"` is a prefix of `"0101"`, and `"01"` masks to a prefix
of `"01/01"` under the date mask. -/
theorem applyMask_pref_mono_example :
    applyMask "01".toList "99/99/9999".toList nineDigit <+:
      applyMask "0101".toList "99/99/9999".toList nineDigit :=
  applyMask_pref_mono "01".toList "0101".toList "99/99/9999".toList nineDigit
    rejectsNone_nineDigit (by decide)

/-- The `some`-callback of the gate, characterised: the new raw value is
forbidden exactly when some position pairs an existing input character with
a mask character that has a mapping entry whose rule rejects it. -/
theorem gateForbidden_iff (v : Replacement) :
    ∀ (m raw : List Char),
      gateForbidden v m raw = true ↔
        ∃ (i : Nat) (mc ic : Char) (regex : JSRegex),
          m[i]? = some mc ∧ raw[i]? = some ic ∧ v mc = some regex ∧
            regex (some ic) = false := by
  intro m
  induction m with
  | nil => intro raw; simp [gateForbidden]
  | cons mc rest ih =>
    intro raw
    cases raw with
    | nil => simp [gateForbidden]
    | cons ic irest =>
      rcases hrep : v mc with _ | regex
      · simp only [gateForbidden, hrep, Bool.false_or]
        rw [ih irest]
        constructor
        · rintro ⟨i, mc2, ic2, regex2, h1, h2, h3, h4⟩
          exact ⟨i + 1, mc2, ic2, regex2, by simpa using h1, by simpa using h2, h3, h4⟩
        · rintro ⟨i, mc2, ic2, regex2, h1, h2, h3, h4⟩
          cases i with
          | zero =>
            simp at h1 h2
            subst h1
            rw [hrep] at h3
            cases h3
          | succ j =>
            simp only [List.getElem?_cons_succ] at h1 h2
            exact ⟨j, mc2, ic2, regex2, h1, h2, h3, h4⟩
      · simp only [gateForbidden, hrep, Bool.or_eq_true, Bool.not_eq_true']
        rw [ih irest]
        constructor
        · rintro (h | ⟨i, mc2, ic2, regex2, h1, h2, h3, h4⟩)
          · exact ⟨0, mc, ic, regex, by simp, by simp, hrep, h⟩
          · exact ⟨i + 1, mc2, ic2, regex2, by simpa using h1, by simpa using h2, h3, h4⟩
        · rintro ⟨i, mc2, ic2, regex2, h1, h2, h3, h4⟩
          cases i with
          | zero =>
            simp at h1 h2
            subst h1
            subst h2
            rw [hrep] at h3
            cases h3
            exact Or.inl h4
          | succ j =>
            simp only [List.getElem?_cons_succ] at h1 h2
            exact Or.inr ⟨j, mc2, ic2, regex2, h1, h2, h3, h4⟩

/-- C9: with strict mode on (`allowunmatches` not set), the keystroke gate
discards a new raw value and restores the previously computed masked value
verbatim if and only if some position that has an input character carries a
mask character with a mapping entry whose rule that input character fails;
a position whose mask character has no entry is never checked (its
`new RegExp(undefined, "g")` is the match-everything empty regex), and a
value that passes the gate is run through `applyMask` in full — there is no
partial acceptance. -/
theorem gate_strict_mode :
    (∀ (m raw : List Char) (v : Replacement),
        gateForbidden v m raw = true ↔
          ∃ (i : Nat) (mc ic : Char) (regex : JSRegex),
            m[i]? = some mc ∧ raw[i]? = some ic ∧ v mc = some regex ∧
              regex (some ic) = false) ∧
    (∀ (previous raw m : List Char) (v : Replacement), gateForbidden v m raw = true →
        oninputResult false previous raw m v = previous) ∧
    (∀ (previous raw m : List Char) (v : Replacement), gateForbidden v m raw = false →
        oninputResult false previous raw m v = applyMask raw m v) := by
  refine ⟨fun m raw v => gateForbidden_iff v m raw, fun previous raw m v h => ?_,
    fun previous raw m v h => ?_⟩
  · simp [oninputResult, h]
  · simp [oninputResult, h]

/-- C9 witness: typing `"a1"` against the date mask `"9/9"` is rejected —
position 0 pairs `'a'` with the slot `'9'` and `/\d/` rejects `'a'` — so
the previous masked value `"1/"` is restored verbatim. -/
theorem gate_strict_mode_example :
    oninputResult false "1/".toList "a1".toList "9/9".toList nineDigit = "1/".toList :=
  gate_strict_mode.2.1 "1/".toList "a1".toList "9/9".toList nineDigit (by decide)

/-- C4 witness: the literal-step equation at the slot-free mask `"/"`,
raw input `"5"`, cursor 0. -/
theorem applyMask_literal_step_example :
    applyMaskGo noSlots "5".toList ['/'] 0 =
      ('/' :: (if "5".toList.length ≤ (if "5".toList[0]? = some '/' then 0 + 1 else 0) then []
               else (applyMaskGo noSlots "5".toList []
                 (if "5".toList[0]? = some '/' then 0 + 1 else 0)).1),
       if "5".toList.length ≤ (if "5".toList[0]? = some '/' then 0 + 1 else 0)
         then (if "5".toList[0]? = some '/' then 0 + 1 else 0)
         else (applyMaskGo noSlots "5".toList []
           (if "5".toList[0]? = some '/' then 0 + 1 else 0)).2) :=
  applyMask_literal_step.1 noSlots "5".toList '/' [] 0 rfl

/-- C8 witness: the length bound at a raw input longer than its mask. -/
theorem applyMask_total_example :
    (applyMask "123456".toList "9/9".toList nineDigit).length ≤ "9/9".toList.length + 8 :=
  applyMask_total.1 "123456".toList "9/9".toList nineDigit
